import Mathlib

/-!
# Verification of the arkivo synchronization core

A shallow embedding of `src/lib/sync.js` (Session, Synchronizer) and
`src/lib/listener.js` (Listener) from the arkivo repository, together with
theorems settling the specification claims about them.

JavaScript plain objects used as key→version maps are modelled as
association lists `List (String × Int)` (JS object keys are unique, which
is captured by `keysNodup` hypotheses where a claim needs it).
-/

namespace Arkivo

/-- A JS plain object used as a key→version mapping. -/
abbrev Obj := List (String × Int)

/-- `o.hasOwnProperty(k)` for an object modelled as an association list. -/
def hasOwn (o : Obj) (k : String) : Bool :=
  o.any (fun kv => kv.1 == k)

/-- `o[k]`: value of the first entry with key `k` (JS objects have unique
keys, so the first entry is the entry). Absent keys read as a default. -/
def getV (o : Obj) (k : String) : Int :=
  match o.find? (fun kv => kv.1 == k) with
  | some kv => kv.2
  | none => 0

/-- JS objects cannot contain a duplicate key. -/
def keysNodup (o : Obj) : Prop := (o.map Prod.fst).Nodup

/-- `target[k] = v`: overwrite the entry for `k` or append a new one. -/
def setKey (o : Obj) (k : String) (v : Int) : Obj :=
  match o with
  | [] => [(k, v)]
  | kv :: rest => if kv.1 == k then (k, v) :: rest else kv :: setKey rest k v

/-- `common.extend(target, source)`: copy every entry of `source` into
`target`, overwriting existing keys (lib/common.js, used by
`Session.prototype.update` to merge continuation pages). -/
def extendObj (target source : Obj) : Obj :=
  source.foldl (fun acc kv => setKey acc kv.1 kv.2) target

/-- `Session.prototype.diff` (src/lib/sync.js:285): classify the keys of
`versions` against `earlier`. The three output arrays are cleared first and
rebuilt: a key in both maps with a strictly greater new version is pushed to
`updated`; a key absent from `earlier` is pushed to `created`; a key of
`earlier` absent from `versions` is pushed to `deleted`. -/
def diff (versions earlier : Obj) : List String × List String × List String :=
  let created := (versions.filter (fun kv => !hasOwn earlier kv.1)).map Prod.fst
  let updated := (versions.filter
    (fun kv => hasOwn earlier kv.1 && decide (kv.2 > getV earlier kv.1))).map Prod.fst
  let deleted := (earlier.filter (fun kv => !hasOwn versions kv.1)).map Prod.fst
  (created, updated, deleted)

def diffCreated (versions earlier : Obj) : List String := (diff versions earlier).1
def diffUpdated (versions earlier : Obj) : List String := (diff versions earlier).2.1
def diffDeleted (versions earlier : Obj) : List String := (diff versions earlier).2.2

/-- Errors raised by a synchronization session. `interrupted` is
`InterruptedError` (src/lib/sync.js:681); everything else is `fatal`. -/
inductive SyncError where
  | interrupted
  | fatal
  deriving DecidableEq, Repr

/-- `InterruptedError.prototype.resume` (src/lib/sync.js:690). -/
def interruptedResume : Nat := 5000

/-- `Session.prototype.check` (src/lib/sync.js:388): accept any version while
the session's version is undefined; once defined, accept only an equal
version and raise `InterruptedError` otherwise. -/
def check (sessionVersion : Option Int) (version : Int) : Except SyncError Bool :=
  match sessionVersion with
  | none => .ok true
  | some v =>
    if v == version then .ok true
    else .error .interrupted

/-- The `modified` getter (src/lib/sync.js:133): the session's version is
defined and strictly greater than the subscription's stored version. -/
def modified (sessionVersion : Option Int) (subscriptionVersion : Int) : Bool :=
  match sessionVersion with
  | none => false
  | some v => v > subscriptionVersion

theorem hasOwn_iff {o : Obj} {k : String} : hasOwn o k = true ↔ ∃ v, (k, v) ∈ o := by
  simp only [hasOwn, List.any_eq_true, beq_iff_eq]
  constructor
  · rintro ⟨⟨k', v⟩, hm, rfl⟩
    exact ⟨v, hm⟩
  · rintro ⟨v, hm⟩
    exact ⟨(k, v), hm, rfl⟩

theorem getV_eq_of_mem {o : Obj} {k : String} {v : Int}
    (hn : keysNodup o) (h : (k, v) ∈ o) : getV o k = v := by
  induction o with
  | nil => cases h
  | cons kv rest ih =>
    simp only [keysNodup, List.map_cons, List.nodup_cons] at hn
    rcases List.mem_cons.mp h with h | h
    · cases h
      simp [getV, List.find?]
    · have hne : kv.1 ≠ k := by
        intro hk
        exact hn.1 (hk ▸ List.mem_map_of_mem Prod.fst h)
      have : (kv.1 == k) = false := beq_eq_false_iff_ne.mpr hne
      simp only [getV, List.find?, this]
      exact ih hn.2 h

theorem mem_filter_map_fst {l : Obj} {p : String × Int → Bool} {k : String} :
    k ∈ (l.filter p).map Prod.fst ↔ ∃ v, (k, v) ∈ l ∧ p (k, v) = true := by
  simp only [List.mem_map, List.mem_filter]
  constructor
  · rintro ⟨⟨k', v⟩, ⟨hm, hp⟩, rfl⟩
    exact ⟨v, hm, hp⟩
  · rintro ⟨v, hm, hp⟩
    exact ⟨(k, v), ⟨hm, hp⟩, rfl⟩

theorem mem_of_hasOwn {o : Obj} {k : String} (hn : keysNodup o)
    (h : hasOwn o k = true) : (k, getV o k) ∈ o := by
  obtain ⟨v, hv⟩ := hasOwn_iff.mp h
  have := getV_eq_of_mem hn hv
  exact this ▸ hv

/-- C1: `Session.diff(current, earlier)` produces exactly: `updated` = keys in
both mappings whose current version is strictly greater; `created` = keys only
in `current`; `deleted` = keys only in `earlier`; an unchanged key appears in
none of the three, and no key appears in more than one of them. -/
theorem diff_correct (versions earlier : Obj)
    (hv : keysNodup versions) (he : keysNodup earlier) :
    (∀ k, k ∈ diffUpdated versions earlier ↔
      (hasOwn versions k = true ∧ hasOwn earlier k = true ∧
        getV versions k > getV earlier k))
    ∧ (∀ k, k ∈ diffCreated versions earlier ↔
      (hasOwn versions k = true ∧ ¬ hasOwn earlier k = true))
    ∧ (∀ k, k ∈ diffDeleted versions earlier ↔
      (hasOwn earlier k = true ∧ ¬ hasOwn versions k = true))
    ∧ (∀ k, hasOwn versions k = true → hasOwn earlier k = true →
        getV versions k = getV earlier k →
        k ∉ diffUpdated versions earlier ∧ k ∉ diffCreated versions earlier ∧
        k ∉ diffDeleted versions earlier)
    ∧ (∀ k, (k ∈ diffUpdated versions earlier →
          k ∉ diffCreated versions earlier ∧ k ∉ diffDeleted versions earlier)
        ∧ (k ∈ diffCreated versions earlier → k ∉ diffDeleted versions earlier)) := by
  have hupd : ∀ k, k ∈ diffUpdated versions earlier ↔
      (hasOwn versions k = true ∧ hasOwn earlier k = true ∧
        getV versions k > getV earlier k) := by
    intro k
    simp only [diffUpdated, diff, mem_filter_map_fst]
    constructor
    · rintro ⟨v, hm, hp⟩
      simp only [Bool.and_eq_true, decide_eq_true_eq] at hp
      exact ⟨hasOwn_iff.mpr ⟨v, hm⟩, hp.1, getV_eq_of_mem hv hm ▸ hp.2⟩
    · rintro ⟨h1, h2, h3⟩
      refine ⟨getV versions k, mem_of_hasOwn hv h1, ?_⟩
      simp only [Bool.and_eq_true, decide_eq_true_eq]
      exact ⟨h2, h3⟩
  have hcre : ∀ k, k ∈ diffCreated versions earlier ↔
      (hasOwn versions k = true ∧ ¬ hasOwn earlier k = true) := by
    intro k
    simp only [diffCreated, diff, mem_filter_map_fst]
    constructor
    · rintro ⟨v, hm, hp⟩
      simp only [Bool.not_eq_true'] at hp
      exact ⟨hasOwn_iff.mpr ⟨v, hm⟩, by simp [hp]⟩
    · rintro ⟨h1, h2⟩
      refine ⟨getV versions k, mem_of_hasOwn hv h1, ?_⟩
      simp only [Bool.not_eq_true'] at h2 ⊢
      exact Bool.not_eq_true _ ▸ h2
  have hdel : ∀ k, k ∈ diffDeleted versions earlier ↔
      (hasOwn earlier k = true ∧ ¬ hasOwn versions k = true) := by
    intro k
    simp only [diffDeleted, diff, mem_filter_map_fst]
    constructor
    · rintro ⟨v, hm, hp⟩
      simp only [Bool.not_eq_true'] at hp
      exact ⟨hasOwn_iff.mpr ⟨v, hm⟩, by simp [hp]⟩
    · rintro ⟨h1, h2⟩
      refine ⟨getV earlier k, mem_of_hasOwn he h1, ?_⟩
      simp only [Bool.not_eq_true'] at h2 ⊢
      exact Bool.not_eq_true _ ▸ h2
  refine ⟨hupd, hcre, hdel, ?_, ?_⟩
  · intro k h1 h2 h3
    refine ⟨?_, ?_, ?_⟩
    · intro h
      have := ((hupd k).mp h).2.2
      omega
    · intro h
      exact ((hcre k).mp h).2 h2
    · intro h
      exact ((hdel k).mp h).2 h1
  · intro k
    constructor
    · intro h
      have h' := (hupd k).mp h
      exact ⟨fun hc => ((hcre k).mp hc).2 h'.2.1,
        fun hd => ((hdel k).mp hd).2 h'.1⟩
    · intro h hd
      exact ((hdel k).mp hd).2 ((hcre k).mp h).1

/-- Witness for C1 at the spec's example: `earlier = {a:1, b:2, c:3}`,
`current = {a:1, b:3, d:1}`, where `b` is updated. -/
theorem diff_correct_witness :
    keysNodup [("a", (1 : Int)), ("b", 3), ("d", 1)] ∧
    keysNodup [("a", (1 : Int)), ("b", 2), ("c", 3)] ∧
    ("b" ∈ diffUpdated [("a", 1), ("b", 3), ("d", 1)] [("a", 1), ("b", 2), ("c", 3)] ↔
      (hasOwn [("a", 1), ("b", 3), ("d", 1)] "b" = true ∧
        hasOwn [("a", 1), ("b", 2), ("c", 3)] "b" = true ∧
        getV [("a", 1), ("b", 3), ("d", 1)] "b" >
          getV [("a", 1), ("b", 2), ("c", 3)] "b")) :=
  ⟨by unfold keysNodup; decide, by unfold keysNodup; decide,
    (diff_correct [("a", 1), ("b", 3), ("d", 1)] [("a", 1), ("b", 2), ("c", 3)]
      (by unfold keysNodup; decide) (by unfold keysNodup; decide)).1 "b"⟩

/-! ## Listener (src/lib/listener.js)

A registration record is the projection `pick(s, 'id', 'key', 'path')` of a
subscription; the `resolve`/`reject` promise callbacks carried by pending
entries are represented by the lists of settled registrations the operations
return. -/

structure Reg where
  id : String
  key : String
  path : String
  deriving DecidableEq, Repr

/-- `by(key, topic)` with a topic (src/lib/listener.js:176): match a
registration by its `(key, path)` pair. -/
def byKeyTopic (key topic : String) (s : Reg) : Bool :=
  s.key == key && s.path == topic

/-- `by(id)` — the one-argument form of `by`: match a registration by `id`. -/
def byId (id : String) (s : Reg) : Bool :=
  s.id == id

/-- The private `remove(list, key, topic)` helper (src/lib/listener.js:170):
find the index of the first element matching the predicate and splice it out,
returning the removed element and the remaining list; `none` when no element
matches. (`common.findIndex`, which is not under src/, is modelled from the
spec as the standard first-index search.) -/
def removeBy (l : List Reg) (p : Reg → Bool) : Option (Reg × List Reg) :=
  match l with
  | [] => none
  | r :: rest =>
    if p r then some (r, rest)
    else
      match removeBy rest p with
      | some (s, rest') => some (s, r :: rest')
      | none => none

/-- Modelled from the spec: `common.find` (lib/common.js is not under src/) —
returns the first element of the list satisfying the predicate, or nothing; it
does not modify the list. -/
def findReg (l : List Reg) (p : Reg → Bool) : Option Reg :=
  l.find? p

/-- The Listener's two registration lists (src/lib/listener.js:31). -/
structure LState where
  pending : List Reg
  current : List Reg
  deriving DecidableEq, Repr

theorem removeBy_length {l : List Reg} {p : Reg → Bool} {s : Reg} {l' : List Reg}
    (h : removeBy l p = some (s, l')) : l'.length + 1 = l.length := by
  induction l generalizing s l' with
  | nil => simp [removeBy] at h
  | cons r rest ih =>
    simp only [removeBy] at h
    by_cases hp : p r
    · simp only [hp, if_true] at h
      cases h
      simp
    · simp only [hp, if_false, Bool.false_eq_true] at h
      cases hrec : removeBy rest p with
      | none => rw [hrec] at h; cases h
      | some pr =>
        rw [hrec] at h
        cases h
        simpa using ih hrec

/-- `Listener.prototype.resolve` (src/lib/listener.js:79): repeatedly remove
the first pending registration matching `(key, topic)`, push it onto the
active list and emit `added`, until no match remains. Returns the new state
and the settled registrations in emission order. -/
def resolve (st : LState) (key topic : String) : LState × List Reg :=
  match h : removeBy st.pending (byKeyTopic key topic) with
  | none => (st, [])
  | some (s, pending') =>
    let r := resolve ⟨pending', st.current ++ [s]⟩ key topic
    (r.1, s :: r.2)
termination_by st.pending.length
decreasing_by
  have := removeBy_length h
  omega

/-- `Listener.prototype.reject` (src/lib/listener.js:97): repeatedly remove
the first pending registration matching `(key, topic)` and emit `error`;
rejected registrations are not added to the active list. -/
def reject (st : LState) (key topic : String) : LState × List Reg :=
  match h : removeBy st.pending (byKeyTopic key topic) with
  | none => (st, [])
  | some (s, pending') =>
    let r := reject ⟨pending', st.current⟩ key topic
    (r.1, s :: r.2)
termination_by st.pending.length
decreasing_by
  have := removeBy_length h
  omega

/-- One confirmed entry of a `subscriptionsCreated` message. -/
structure Confirmation where
  apiKey : String
  topics : List String
  deriving Repr

/-- One failed entry of a `subscriptionsCreated` message
(`pluck(errors[i], 'apiKey', 'topic', 'error')`). -/
structure SubError where
  apiKey : String
  topic : String
  error : String
  deriving Repr

/-- `Listener.prototype.subscribed` (src/lib/listener.js:43): for every
confirmed subscription, call `resolve(key, topic)` for each of its topics;
for every error entry, call `reject(key, topic)`. Returns the final state,
the registrations settled by `resolve` (in order) and those settled by
`reject`. -/
def subscribed (st : LState) (subscriptions : List Confirmation)
    (errors : List SubError) : LState × List Reg × List Reg :=
  let step := subscriptions.foldl
    (fun (acc : LState × List Reg) c =>
      c.topics.foldl
        (fun (acc : LState × List Reg) t =>
          let r := resolve acc.1 c.apiKey t
          (r.1, acc.2 ++ r.2))
        acc)
    (st, [])
  let step2 := errors.foldl
    (fun (acc : LState × List Reg) e =>
      let r := reject acc.1 e.apiKey e.topic
      (r.1, acc.2 ++ r.2))
    (step.1, [])
  (step2.1, step.2, step2.2)

theorem filter_of_removeBy_none {l : List Reg} {p : Reg → Bool}
    (h : removeBy l p = none) :
    l.filter p = [] ∧ l.filter (fun x => !p x) = l := by
  induction l with
  | nil => simp
  | cons r rest ih =>
    simp only [removeBy] at h
    by_cases hp : p r
    · simp [hp] at h
    · simp only [hp, if_false, Bool.false_eq_true] at h
      cases hrec : removeBy rest p with
      | none =>
        have := ih hrec
        simp [List.filter, hp, this.1, this.2]
      | some pr => rw [hrec] at h; cases h

theorem filter_of_removeBy_some {l : List Reg} {p : Reg → Bool} {s : Reg}
    {l' : List Reg} (h : removeBy l p = some (s, l')) :
    l.filter p = s :: l'.filter p ∧
      l.filter (fun x => !p x) = l'.filter (fun x => !p x) := by
  induction l generalizing s l' with
  | nil => simp [removeBy] at h
  | cons r rest ih =>
    simp only [removeBy] at h
    by_cases hp : p r
    · simp only [hp, if_true] at h
      cases h
      simp [List.filter, hp]
    · simp only [hp, if_false, Bool.false_eq_true] at h
      cases hrec : removeBy rest p with
      | none => rw [hrec] at h; cases h
      | some pr =>
        rw [hrec] at h
        cases h
        have := ih hrec
        simp [List.filter, hp, this.1, this.2]

/-- The while/remove loop of `resolve` settles every matching pending entry,
in FIFO order, appending each to the active list. -/
theorem resolve_eq (st : LState) (key topic : String) :
    resolve st key topic =
      (⟨st.pending.filter (fun s => !byKeyTopic key topic s),
        st.current ++ st.pending.filter (byKeyTopic key topic)⟩,
       st.pending.filter (byKeyTopic key topic)) := by
  suffices hgen : ∀ (n : Nat) (pending current : List Reg), pending.length ≤ n →
      resolve ⟨pending, current⟩ key topic =
        (⟨pending.filter (fun s => !byKeyTopic key topic s),
          current ++ pending.filter (byKeyTopic key topic)⟩,
         pending.filter (byKeyTopic key topic)) by
    obtain ⟨pending, current⟩ := st
    exact hgen pending.length pending current le_rfl
  intro n
  induction n with
  | zero =>
    intro pending current hlen
    have hp : pending = [] := List.eq_nil_of_length_eq_zero (Nat.le_zero.mp hlen)
    subst hp
    rw [resolve]
    simp [removeBy]
  | succ n ih =>
    intro pending current hlen
    rw [resolve]
    cases h : removeBy pending (byKeyTopic key topic) with
    | none =>
      have hf := filter_of_removeBy_none h
      simp [hf.1, hf.2]
    | some pr =>
      obtain ⟨s, pending'⟩ := pr
      have hf := filter_of_removeBy_some h
      have hl := removeBy_length h
      have hrec := ih pending' (current ++ [s]) (by omega)
      simp only [hrec, hf.1, hf.2]
      simp

/-- C3 counterexample: two pending registrations for the same `(key, topic)`
pair and a single subscriptionsCreated confirmation — both registrations are
settled and moved to the active set, so the claim that the second one remains
pending is false. -/
theorem subscribed_counterexample :
    byKeyTopic "k" "t" ⟨"s2", "k", "t"⟩ = true
    ∧ (subscribed ⟨[⟨"s1", "k", "t"⟩, ⟨"s2", "k", "t"⟩], []⟩
        [⟨"k", ["t"]⟩] []).1.pending = []
    ∧ (subscribed ⟨[⟨"s1", "k", "t"⟩, ⟨"s2", "k", "t"⟩], []⟩
        [⟨"k", ["t"]⟩] []).1.current = [⟨"s1", "k", "t"⟩, ⟨"s2", "k", "t"⟩] := by
  refine ⟨by decide, ?_, ?_⟩ <;>
    simp [subscribed, resolve_eq, byKeyTopic]

/-- C3 (amended): a single subscriptionsCreated confirmation for a `(key,
topic)` pair settles every pending registration matching that pair — not just
the oldest — in FIFO order, moving each into the active set; only
registrations not matching the pair remain pending. -/
theorem subscribed_settles_all (st : LState) (key topic : String) :
    subscribed st [⟨key, [topic]⟩] [] =
      (⟨st.pending.filter (fun s => !byKeyTopic key topic s),
        st.current ++ st.pending.filter (byKeyTopic key topic)⟩,
       st.pending.filter (byKeyTopic key topic), []) := by
  simp [subscribed, resolve_eq]

/-- `Listener.prototype.updated` (src/lib/listener.js:66): the loop
`while ((s = find(this.current, predicate))) { emit('updated', s); }`
modelled with explicit fuel. `none` means the loop had not finished after
`fuel` iterations; `some emitted` gives the emissions of a finished run. -/
def updatedLoop (fuel : Nat) (current : List Reg) (key topic : String)
    (emitted : List Reg) : Option (List Reg) :=
  match fuel with
  | 0 => none
  | fuel + 1 =>
    match findReg current (byKeyTopic key topic) with
    | none => some emitted
    | some s => updatedLoop fuel current key topic (emitted ++ [s])

/-- C4: as soon as one active registration matches the notification's
`(key, topic)`, the topicUpdated handler never terminates: `find` does not
modify `current`, so the while loop re-finds the same first match and
re-emits it forever — the loop exhausts any finite fuel. This contradicts
the claim that the handler terminates with exactly one `updated` event per
matching registration. -/
theorem updated_diverges (current : List Reg) (key topic : String) (s : Reg)
    (hs : findReg current (byKeyTopic key topic) = some s) :
    ∀ (fuel : Nat) (emitted : List Reg),
      updatedLoop fuel current key topic emitted = none := by
  intro fuel
  induction fuel with
  | zero => intro _; rfl
  | succ n ih =>
    intro emitted
    simp only [updatedLoop, hs]
    exact ih (emitted ++ [s])

/-- Witness for C4 at the failing input: a single matching active
registration already makes the handler spin forever. -/
theorem updated_diverges_witness :
    updatedLoop 5 [⟨"s1", "k", "t"⟩] "k" "t" [] = none :=
  updated_diverges [⟨"s1", "k", "t"⟩] "k" "t" ⟨"s1", "k", "t"⟩ (by decide) 5 []

/-- Outcomes of `Listener.prototype.remove`. -/
inductive RemoveError where
  | notRegistered
  | unsubscribeFailed
  deriving DecidableEq, Repr

/-- `Listener.prototype.remove` (src/lib/listener.js:145): splice the active
registration matching the subscription's `id` out of `current`; if none
exists, reject with 'not registered'; otherwise issue the remote
`unsubscribe(apiKey, topic)` request — its outcome is the `unsubscribe`
parameter — and reject or resolve with the removed registration accordingly.
Returns the final listener state together with the promise outcome. -/
def removeSubscription (st : LState) (id : String)
    (unsubscribe : Except Unit Unit) : LState × Except RemoveError Reg :=
  match removeBy st.current (byId id) with
  | none => (st, .error .notRegistered)
  | some (data, current') =>
    match unsubscribe with
    | .error _ => (⟨st.pending, current'⟩, .error .unsubscribeFailed)
    | .ok _ => (⟨st.pending, current'⟩, .ok data)

/-- C5 counterexample: one active registration and a failing remote
unsubscribe — the call rejects, yet the registration has already been removed
from the active set, refuting "the registration is still in the active
set". -/
theorem remove_counterexample :
    (removeSubscription ⟨[], [⟨"s1", "k", "t"⟩]⟩ "s1" (.error ())).2 =
      .error .unsubscribeFailed
    ∧ (removeSubscription ⟨[], [⟨"s1", "k", "t"⟩]⟩ "s1" (.error ())).1.current
        = [] :=
  ⟨rfl, rfl⟩

/-- C5 (amended): if no active registration with the subscription's id
exists, remove rejects with 'not registered' and the state is unchanged. If
one exists, it is spliced out of the active set immediately, before the
unsubscribe outcome is known: a failed unsubscribe rejects the call with the
registration nevertheless removed from the active set, and a successful one
resolves with the removed registration. -/
theorem remove_spec (st : LState) (id : String) (unsub : Except Unit Unit) :
    (removeBy st.current (byId id) = none →
      removeSubscription st id unsub = (st, .error .notRegistered))
    ∧ (∀ data current',
        removeBy st.current (byId id) = some (data, current') →
        (removeSubscription st id unsub).1 = ⟨st.pending, current'⟩
        ∧ (unsub = .error () →
            (removeSubscription st id unsub).2 = .error .unsubscribeFailed)
        ∧ (unsub = .ok () →
            (removeSubscription st id unsub).2 = .ok data)) := by
  constructor
  · intro h
    simp [removeSubscription, h]
  · intro data current' h
    cases unsub with
    | error e => simp [removeSubscription, h]
    | ok v => simp [removeSubscription, h]

/-- Witness for C5 at a concrete input: the failing-unsubscribe branch. -/
theorem remove_spec_witness :
    (removeSubscription ⟨[], [⟨"s1", "k", "t"⟩]⟩ "s1" (.error ())).1 =
      ⟨[], []⟩
    ∧ (removeSubscription ⟨[], [⟨"s1", "k", "t"⟩]⟩ "s1" (.error ())).2 =
      .error .unsubscribeFailed :=
  have h := (remove_spec ⟨[], [⟨"s1", "k", "t"⟩]⟩ "s1" (.error ())).2
    ⟨"s1", "k", "t"⟩ [] (by decide)
  ⟨h.1, h.2.1 rfl⟩

/-! ## Synchronizer (src/lib/sync.js) -/

/-- A plugin descriptor `{name, options}` of a subscription. -/
structure Plugin where
  name : String
  deriving DecidableEq, Repr

/-- `Synchronizer.prototype.dispatch` (src/lib/sync.js:616): process the
subscription's plugins strictly sequentially (Bluebird map, concurrency 1);
a plugin whose name is not in `plugins.available` is skipped with a
diagnostic; the first failing plugin invocation rejects the whole dispatch
(its error is logged and re-thrown), so later plugins do not run. `available`
tells whether a name is registered and `run` gives each invocation's
outcome. -/
def dispatch (available : String → Bool) (run : Plugin → Except Unit Unit) :
    List Plugin → Except Unit Unit
  | [] => .ok ()
  | p :: rest =>
    if available p.name then
      match run p with
      | .error e => .error e
      | .ok _ => dispatch available run rest
    else dispatch available run rest

/-- The tail of `Synchronizer.prototype.synchronize` (src/lib/sync.js:577)
after `session.execute` has finished: if the session is `modified` then,
unless `skip`, the session is dispatched to the plugins, and then
`sub.update({version, versions})` is called. `yield this.dispatch(session)`
re-throws a dispatch failure out of the coroutine, so the `sub.update` call
below it is not reached in that case. The first component records the
`sub.update` persist calls that were made. -/
def synchronizeTail (sessionVersion : Option Int) (versions : Obj)
    (subVersion : Int) (skip : Bool) (available : String → Bool)
    (run : Plugin → Except Unit Unit) (ps : List Plugin) :
    List (Option Int × Obj) × Except Unit Unit :=
  if modified sessionVersion subVersion then
    if !skip then
      match dispatch available run ps with
      | .error e => ([], .error e)
      | .ok _ => ([(sessionVersion, versions)], .ok ())
    else ([(sessionVersion, versions)], .ok ())
  else ([], .ok ())

/-- C2 counterexample: a modified session (remote version 2 over stored
version 1) whose single available plugin fails — synchronize propagates the
plugin error and `sub.update` is never called, refuting "the new version
state is still persisted after dispatch" for failing dispatches. -/
theorem synchronize_counterexample :
    modified (some 2) 1 = true
    ∧ (synchronizeTail (some 2) [("a", 2)] 1 false (fun _ => true)
        (fun _ => .error ()) [⟨"p"⟩]).1 = []
    ∧ (synchronizeTail (some 2) [("a", 2)] 1 false (fun _ => true)
        (fun _ => .error ()) [⟨"p"⟩]).2 = .error () :=
  ⟨rfl, rfl, rfl⟩

/-- C2 (amended): when the session ends modified, `sub.update({version,
versions})` is called after dispatch only if the plugin dispatch succeeded
(or was skipped); a failing dispatch propagates its error and the version
state is not persisted. An unmodified session persists nothing. -/
theorem synchronize_persist (sv : Option Int) (versions : Obj) (subv : Int)
    (available : String → Bool) (run : Plugin → Except Unit Unit)
    (ps : List Plugin) :
    (modified sv subv = true → dispatch available run ps = .ok () →
      synchronizeTail sv versions subv false available run ps =
        ([(sv, versions)], .ok ()))
    ∧ (modified sv subv = true → ∀ e, dispatch available run ps = .error e →
      synchronizeTail sv versions subv false available run ps =
        ([], .error e))
    ∧ (modified sv subv = true →
      synchronizeTail sv versions subv true available run ps =
        ([(sv, versions)], .ok ()))
    ∧ (modified sv subv = false → ∀ skip,
      synchronizeTail sv versions subv skip available run ps =
        ([], .ok ())) := by
  refine ⟨?_, ?_, ?_, ?_⟩
  · intro hm hd
    simp [synchronizeTail, hm, hd]
  · intro hm e hd
    simp [synchronizeTail, hm, hd]
  · intro hm
    simp [synchronizeTail, hm]
  · intro hm skip
    simp [synchronizeTail, hm]

/-- Witness for C2's amended statement: the failing-dispatch branch at the
counterexample's input. -/
theorem synchronize_persist_witness :
    synchronizeTail (some 2) [("a", 2)] 1 false (fun _ => true)
      (fun _ => .error ()) [⟨"p"⟩] = ([], .error ()) :=
  (synchronize_persist (some 2) [("a", 2)] 1 (fun _ => true)
    (fun _ => .error ()) [⟨"p"⟩]).2.1 rfl () rfl

/-- The body of `execute`'s try block (src/lib/sync.js:250):
`yield this.update(); if (!skip) yield this.download();` for the `n`-th
attempt, with the outcomes of the two steps given by oracles. -/
def attemptOnce (update download : Nat → Except SyncError Unit) (skip : Bool)
    (attempt : Nat) : Except SyncError Unit :=
  match update attempt with
  | .error e => .error e
  | .ok _ => if skip then .ok () else download attempt

/-- `Session.prototype.execute` (src/lib/sync.js:247): run the try block; on
an error, re-throw it unless it is an InterruptedError and `retry > 0`, in
which case wait `error.resume` (5000ms) and re-invoke with `retry - 1`. The
first component records the delays waited before each retry. -/
def execute (update download : Nat → Except SyncError Unit) (skip : Bool)
    (attempt retry : Nat) : List Nat × Except SyncError Unit :=
  match attemptOnce update download skip attempt with
  | .ok _ => ([], .ok ())
  | .error e =>
    match retry, e with
    | 0, _ => ([], .error e)
    | _ + 1, .fatal => ([], .error .fatal)
    | r + 1, .interrupted =>
      let next := execute update download skip (attempt + 1) r
      (interruptedResume :: next.1, next.2)
termination_by retry

/-- C7: `execute` re-invokes itself with `retry - 1` after waiting the
Interrupted error's resume delay whenever the attempt (update, or download
when not skipped) raises an InterruptedError and `retry > 0`; with
`retry = 0`, or when the error is not an InterruptedError, the error
propagates without any retry. -/
theorem execute_retry (u d : Nat → Except SyncError Unit) (skip : Bool)
    (k : Nat) :
    (attemptOnce u d skip k = .error .interrupted → ∀ r,
      execute u d skip k (r + 1) =
        (interruptedResume :: (execute u d skip (k + 1) r).1,
         (execute u d skip (k + 1) r).2))
    ∧ (∀ e, attemptOnce u d skip k = .error e →
        execute u d skip k 0 = ([], .error e))
    ∧ (attemptOnce u d skip k = .error .fatal → ∀ r,
        execute u d skip k r = ([], .error .fatal))
    ∧ (attemptOnce u d skip k = .error .interrupted ↔
        (u k = .error .interrupted ∨
          (u k = .ok () ∧ skip = false ∧ d k = .error .interrupted))) := by
  refine ⟨?_, ?_, ?_, ?_⟩
  · intro h r
    conv_lhs => rw [execute.eq_def, h]
  · intro e h
    conv_lhs => rw [execute.eq_def, h]
  · intro h r
    cases r with
    | zero => conv_lhs => rw [execute.eq_def, h]
    | succ n => conv_lhs => rw [execute.eq_def, h]
  · unfold attemptOnce
    cases hu : u k with
    | error e =>
      cases e <;> simp
    | ok v =>
      cases v
      cases skip with
      | true => simp
      | false =>
        cases hd : d k with
        | error e => cases e <;> simp
        | ok w => cases w; simp

/-- Witness for C7: with `retry = 0` and an update that always raises
InterruptedError, `execute` propagates the interruption without retrying. -/
theorem execute_retry_witness :
    execute (fun _ => .error .interrupted) (fun _ => .ok ()) false 0 0 =
      ([], .error .interrupted) :=
  (execute_retry (fun _ => .error .interrupted) (fun _ => .ok ()) false 0).2.1
    .interrupted rfl

/-- The version-related state of a `Session` (src/lib/sync.js:35): the
observed remote `version` (undefined until a successful version fetch),
the fetched key→version mapping and the three diff arrays. -/
structure SessState where
  version : Option Int
  versions : Obj
  created : List String
  updated : List String
  deleted : List String
  deriving DecidableEq, Repr

/-- A fresh session (constructor, src/lib/sync.js:35): `version` is
undefined. (`versions` is also initially undefined; it is modelled as the
empty mapping.) -/
def Session.new : SessState :=
  ⟨none, [], [], [], []⟩

/-- A Zotero `format=versions` response page as consumed by
`Session.prototype.update`: the `unmodified` short-circuit flag, the library
`version` header and the key→version `data`. -/
structure VMessage where
  unmodified : Bool
  version : Int
  data : Obj
  deriving DecidableEq, Repr

/-- The `while (!message.done)` pagination loop of `update`
(src/lib/sync.js:354): `check` each continuation page's version against the
session's, then `extend(this.versions, message.data)`. -/
def mergePages (s : SessState) : List VMessage → Except SyncError SessState
  | [] => .ok s
  | m :: rest =>
    match check s.version m.version with
    | .error e => .error e
    | .ok _ => mergePages { s with versions := extendObj s.versions m.data } rest

/-- `Session.prototype.update` (src/lib/sync.js:332): reset `version` to
undefined; if the response reports the resource unmodified, return with
`version` still undefined; otherwise record the first page's version and
data, merge every continuation page (checking its version first), and
compute the diff against the subscription's stored versions. -/
def update (s : SessState) (subVersions : Obj) (first : VMessage)
    (rest : List VMessage) : Except SyncError SessState :=
  let s0 := { s with version := none }
  if first.unmodified then .ok s0
  else
    let s1 := { s0 with version := some first.version, versions := first.data }
    match mergePages s1 rest with
    | .error e => .error e
    | .ok s2 =>
      let d := diff s2.versions subVersions
      .ok { s2 with created := d.1, updated := d.2.1, deleted := d.2.2 }

theorem mergePages_version {pages : List VMessage} :
    ∀ {s s' : SessState}, mergePages s pages = .ok s' → s'.version = s.version := by
  induction pages with
  | nil =>
    intro s s' h
    simp only [mergePages] at h
    cases h
    rfl
  | cons m rest ih =>
    intro s s' h
    simp only [mergePages] at h
    split at h
    · simp at h
    · have h2 := ih h
      exact h2

/-- C8: `modified` holds exactly when the session's version is defined and
strictly greater than the subscription's stored version. It is false for a
fresh session (before any version fetch), false when `update` returns early
because the server reported the resource unmodified (`version` stays
undefined), and — when `update` did fetch a version — true precisely when
the fetched version is strictly greater than the stored one (so false when
it is equal or less). -/
theorem modified_spec :
    (∀ (sv : Option Int) (subv : Int),
      modified sv subv = true ↔ ∃ v, sv = some v ∧ v > subv)
    ∧ (∀ subv, modified Session.new.version subv = false)
    ∧ (∀ s subVersions first rest s' subv, first.unmodified = true →
        update s subVersions first rest = .ok s' →
        s'.version = none ∧ modified s'.version subv = false)
    ∧ (∀ s subVersions first rest s' subv, first.unmodified = false →
        update s subVersions first rest = .ok s' →
        s'.version = some first.version ∧
        (modified s'.version subv = true ↔ first.version > subv)) := by
  have hm : ∀ (sv : Option Int) (subv : Int),
      modified sv subv = true ↔ ∃ v, sv = some v ∧ v > subv := by
    intro sv subv
    cases sv with
    | none => simp [modified]
    | some v => simp [modified]
  refine ⟨hm, ?_, ?_, ?_⟩
  · intro subv
    rfl
  · intro s subVersions first rest s' subv hu h
    simp only [update, hu, if_true] at h
    cases h
    exact ⟨rfl, rfl⟩
  · intro s subVersions first rest s' subv hu h
    simp only [update, hu, Bool.false_eq_true, if_false] at h
    split at h
    · simp at h
    · rename_i s2 hmg
      cases h
      have hv := mergePages_version hmg
      refine ⟨hv, ?_⟩
      rw [hv]
      simp [modified]

/-- Witness for C8 at concrete inputs: an unmodified response leaves the
session unmodified, and a fetched version 2 over stored version 1 makes it
modified. -/
theorem modified_spec_witness :
    update Session.new [] ⟨true, 7, []⟩ [] = .ok Session.new
    ∧ modified Session.new.version 0 = false
    ∧ (modified (some 2) 1 = true ↔ ∃ v, (some 2 : Option Int) = some v ∧ v > 1) :=
  ⟨rfl,
    (modified_spec.2.2.1 Session.new [] ⟨true, 7, []⟩ [] Session.new 0
      rfl rfl).2,
    modified_spec.1 (some 2) 1⟩

/-- A Zotero item as consumed by `Session.prototype.receive`: its `key`,
`version`, optional parent reference (`data.parentItem`, read by the
`getParent` helper, src/lib/sync.js:694), child count (`meta.numChildren`,
read by `hasChildren`, src/lib/sync.js:698) and — standing in for the
`/children` API response that `Session.prototype.children` fetches — the
version header and items of its children message. -/
inductive JItem where
  | mk (key : String) (version : Int) (parent : Option String)
      (numChildren : Nat) (childrenVersion : Int) (children : List JItem)

def JItem.key : JItem → String
  | .mk k _ _ _ _ _ => k

def JItem.version : JItem → Int
  | .mk _ v _ _ _ _ => v

def JItem.parent : JItem → Option String
  | .mk _ _ p _ _ _ => p

def JItem.numChildren : JItem → Nat
  | .mk _ _ _ n _ _ => n

def JItem.childrenVersion : JItem → Int
  | .mk _ _ _ _ cv _ => cv

def JItem.children : JItem → List JItem
  | .mk _ _ _ _ _ ch => ch

theorem JItem.sizeOf_children_lt (it : JItem) : sizeOf it.children < sizeOf it := by
  cases it with
  | mk k v p n cv ch =>
    simp [JItem.children]

/-- The session's `items` cache (`this.items`), indexed by item key. -/
abbrev Items := List (String × JItem)

/-- `this.items[item.key] = item` (src/lib/sync.js:491). -/
def setItem (items : Items) (it : JItem) : Items :=
  match items with
  | [] => [(it.key, it)]
  | kv :: rest =>
    if kv.1 == it.key then (it.key, it) :: rest else kv :: setItem rest it

/-- `this.items[key]`: undefined when the key was never stored. -/
def getItem (items : Items) (k : String) : Option JItem :=
  (items.find? (fun kv => kv.1 == k)).map (fun kv => kv.2)

/-- `this.versions[key]` as read by the download batch selection
(src/lib/sync.js:444): an absent key reads as undefined, which compares
unequal to every number. -/
def lookupV (o : Obj) (k : String) : Option Int :=
  (o.find? (fun kv => kv.1 == k)).map (fun kv => kv.2)

/-- An item-batch response message (`format=json`, `include=data`). -/
structure IMessage where
  version : Int
  data : List JItem

/-- The parent-key append of `receive` (src/lib/sync.js:496): when a
worklist was passed and the item references a parent, append the parent key
to the end of the worklist unless it is already present
(`keys.indexOf(parent) === -1`). -/
def appendParent (keys : Option (List String)) (parent : Option String) :
    Option (List String) :=
  match keys, parent with
  | some ks, some p => if ks.contains p then some ks else some (ks ++ [p])
  | some ks, none => some ks
  | none, _ => none

mutual
/-- `Session.prototype.receive` (src/lib/sync.js:472): first `check` the
message version — on a mismatch the InterruptedError aborts with the
worklist and the items cache exactly as they were — then process the
message's items. On an abort the `error` value carries the worklist and
cache reached so far, mirroring the in-place mutation of `keys` and
`this.items` before a nested throw. -/
def receive (sv : Option Int) (msg : IMessage) (keys : Option (List String))
    (items : Items) :
    Except (Option (List String) × Items) (Option (List String) × Items) :=
  match check sv msg.version with
  | .error _ => .error (keys, items)
  | .ok _ => receiveItems sv msg.data keys items
termination_by sizeOf msg.data + 1

/-- The item loop of `receive` (src/lib/sync.js:488): store each item in
`this.items`; if a worklist was passed and the item's payload references a
parent key not already in it, append the parent to the end of the worklist;
if the item has children, receive its children message — `receive` is
invoked without a worklist there (src/lib/sync.js:511). -/
def receiveItems (sv : Option Int) (ls : List JItem)
    (keys : Option (List String)) (items : Items) :
    Except (Option (List String) × Items) (Option (List String) × Items) :=
  match ls with
  | [] => .ok (keys, items)
  | it :: rest =>
    let items1 := setItem items it
    let keys1 := appendParent keys it.parent
    if it.numChildren ≠ 0 then
      match receive sv ⟨it.childrenVersion, it.children⟩ none items1 with
      | .error r => .error (keys1, r.2)
      | .ok r => receiveItems sv rest keys1 r.2
    else receiveItems sv rest keys1 items1
termination_by sizeOf ls
decreasing_by
  · have := JItem.sizeOf_children_lt it
    simp at this ⊢
    all_goals omega
  · simp
  · simp
end

/-- C6: `check(v)` returns true for every `v` while the session's version is
undefined; once defined it returns true exactly for the equal version and
raises InterruptedError otherwise; and `receive` runs this check before
merging the batch's items, so a mismatching batch aborts with the worklist
and the `items` cache — including everything merged by earlier batches —
exactly as they were. -/
theorem check_receive_spec :
    (∀ v : Int, check none v = .ok true)
    ∧ (∀ v w : Int, v = w → check (some v) w = .ok true)
    ∧ (∀ v w : Int, v ≠ w → check (some v) w = .error .interrupted)
    ∧ (∀ (v : Int) (msg : IMessage) (keys : Option (List String))
        (items : Items), msg.version ≠ v →
        receive (some v) msg keys items = .error (keys, items)) := by
  refine ⟨?_, ?_, ?_, ?_⟩
  · intro v
    rfl
  · intro v w h
    simp [check, h]
  · intro v w h
    have hb : (v == w) = false := beq_eq_false_iff_ne.mpr h
    simp [check, hb]
  · intro v msg keys items h
    have hb : (v == msg.version) = false := beq_eq_false_iff_ne.mpr h.symm
    rw [receive]
    simp [check, hb]

/-- Witness for C6: a session at version 3 receiving a version-4 batch
aborts, with the item cached by an earlier batch still present. -/
theorem check_receive_spec_witness :
    receive (some 3) ⟨4, []⟩ (some ["b"])
      [("a", .mk "a" 1 none 0 0 [])] =
      .error (some ["b"], [("a", .mk "a" 1 none 0 0 [])]) :=
  check_receive_spec.2.2.2 3 ⟨4, []⟩ (some ["b"])
    [("a", .mk "a" 1 none 0 0 [])] (by decide)

/-- The batch-selection loop of `download` (src/lib/sync.js:440): starting
at cursor `i`, walk the worklist pushing each key whose cached item is
absent or whose cached version differs from `this.versions[key]`; stop when
the batch reaches `MAX_BATCH_SIZE` (50), advancing the cursor past the key
just pushed, or when the worklist is exhausted. Returns the batch and the
new cursor. -/
def selectBatch (versions : Obj) (items : Items) (keys : List String)
    (i : Nat) (batch : List String) : List String × Nat :=
  if h : i < keys.length then
    let key := keys.get ⟨i, h⟩
    let isStale :=
      match getItem items key with
      | none => true
      | some it => !(some it.version == lookupV versions key)
    if isStale then
      let batch1 := batch ++ [key]
      if batch1.length ≥ 50 then (batch1, i + 1)
      else selectBatch versions items keys (i + 1) batch1
    else selectBatch versions items keys (i + 1) batch
  else (batch, i)
termination_by keys.length - i

/-- `Session.prototype.fetch` (src/lib/sync.js:176) against a remote library
`lib`: the response carries the library's items for the batch's keys. -/
def fetchItems (lib : List (String × JItem)) (batch : List String) :
    List JItem :=
  batch.filterMap
    (fun k => (lib.find? (fun kv => kv.1 == k)).map (fun kv => kv.2))

/-- Outcome of a download run: the final worklist and items cache, reached
either by normal completion or because an InterruptedError unwound the
loop. -/
inductive DownloadResult where
  | ok (keys : List String) (items : Items)
  | interrupted (keys : List String) (items : Items)

def DownloadResult.keys : DownloadResult → List String
  | .ok ks _ => ks
  | .interrupted ks _ => ks

def DownloadResult.items : DownloadResult → Items
  | .ok _ its => its
  | .interrupted _ its => its

/-- The `while (i < keys.length)` loop of `Session.prototype.download`
(src/lib/sync.js:435) with explicit fuel (`none` = fuel exhausted before the
loop finished). `lib` backs `fetch`, and `rv` is the version every fetch
response reports. The worklist grows through `receive` when parent keys are
appended. -/
def downloadLoop (fuel : Nat) (sv : Option Int) (rv : Int) (versions : Obj)
    (lib : List (String × JItem)) (keys : List String) (i : Nat)
    (items : Items) : Option DownloadResult :=
  match fuel with
  | 0 => none
  | fuel + 1 =>
    if i < keys.length then
      let sel := selectBatch versions items keys i []
      if sel.1.isEmpty then
        downloadLoop fuel sv rv versions lib keys sel.2 items
      else
        match receive sv ⟨rv, fetchItems lib sel.1⟩ (some keys) items with
        | .error r => some (.interrupted (r.1.getD keys) r.2)
        | .ok r => downloadLoop fuel sv rv versions lib (r.1.getD keys) sel.2 r.2
    else some (.ok keys items)

/-- `Session.prototype.download` (src/lib/sync.js:422): the worklist defaults
to `updated.concat(created)`; an empty worklist returns immediately;
otherwise the batch loop runs from cursor 0. -/
def download (fuel : Nat) (sv : Option Int) (rv : Int) (versions : Obj)
    (lib : List (String × JItem)) (keysArg : Option (List String))
    (updated created : List String) (items : Items) :
    Option DownloadResult :=
  let keys := keysArg.getD (updated ++ created)
  if keys.length = 0 then some (.ok keys items)
  else downloadLoop fuel sv rv versions lib keys 0 items

/-- C9: for a download of `[x]` where `x`'s payload references a parent `p`
that is not in the key list, `p` is appended to the end of the worklist and
fetched in a later batch of the same `download()` call: the final worklist
is `[x, p]` and `p`'s item is in the cache, without a second top-level
download invocation. -/
theorem download_fetches_parent (x p : String) (vx vp rv : Int)
    (versions : Obj) (hne : x ≠ p) :
    download 3 (some rv) rv versions
      [(x, .mk x vx (some p) 0 0 []), (p, .mk p vp none 0 0 [])]
      (some [x]) [] [] [] =
      some (.ok [x, p]
        [(x, .mk x vx (some p) 0 0 []), (p, .mk p vp none 0 0 [])])
    ∧ getItem [(x, .mk x vx (some p) 0 0 []), (p, .mk p vp none 0 0 [])] p =
        some (.mk p vp none 0 0 []) := by
  have hxp : (x == p) = false := beq_eq_false_iff_ne.mpr hne
  have hpx : (p == x) = false := beq_eq_false_iff_ne.mpr (Ne.symm hne)
  refine ⟨?_, ?_⟩
  · have hsel1 : selectBatch versions [] [x] 0 [] = ([x], 1) := by
      rw [selectBatch]
      simp [getItem]
      rw [selectBatch]
      simp
    have hfetch1 :
        fetchItems [(x, JItem.mk x vx (some p) 0 0 []),
          (p, JItem.mk p vp none 0 0 [])] [x] = [JItem.mk x vx (some p) 0 0 []] := by
      simp [fetchItems]
    have hrecv1 :
        receive (some rv) ⟨rv, [JItem.mk x vx (some p) 0 0 []]⟩ (some [x]) [] =
          .ok (some [x, p], [(x, JItem.mk x vx (some p) 0 0 [])]) := by
      rw [receive]
      simp [check, receiveItems, setItem, appendParent, JItem.key,
        JItem.parent, JItem.numChildren, List.contains, hpx, Ne.symm hne]
    have hsel2 : selectBatch versions [(x, JItem.mk x vx (some p) 0 0 [])]
        [x, p] 1 [] = ([p], 2) := by
      rw [selectBatch]
      simp [getItem, hxp]
      rw [selectBatch]
      simp
    have hfetch2 :
        fetchItems [(x, JItem.mk x vx (some p) 0 0 []),
          (p, JItem.mk p vp none 0 0 [])] [p] = [JItem.mk p vp none 0 0 []] := by
      simp [fetchItems, hxp]
    have hrecv2 :
        receive (some rv) ⟨rv, [JItem.mk p vp none 0 0 []]⟩ (some [x, p])
          [(x, JItem.mk x vx (some p) 0 0 [])] =
          .ok (some [x, p], [(x, JItem.mk x vx (some p) 0 0 []),
            (p, JItem.mk p vp none 0 0 [])]) := by
      rw [receive]
      simp [check, receiveItems, setItem, appendParent, JItem.key,
        JItem.parent, JItem.numChildren, hxp]
    rw [show (3 : Nat) = 2 + 1 from rfl]
    simp only [download, Option.getD]
    rw [if_neg (by simp)]
    rw [downloadLoop]
    rw [if_pos (by simp)]
    simp only [hsel1, hfetch1, hrecv1, List.isEmpty_cons, Option.getD,
      Bool.false_eq_true, if_false]
    rw [show (2 : Nat) = 1 + 1 from rfl]
    rw [downloadLoop]
    rw [if_pos (by simp)]
    simp only [hsel2, hfetch2, hrecv2, List.isEmpty_cons, Option.getD,
      Bool.false_eq_true, if_false]
    rw [show (1 : Nat) = 0 + 1 from rfl]
    rw [downloadLoop]
    rw [if_neg (by simp)]
  · simp [getItem, hxp, hpx]

/-- Witness for C9 at concrete keys and versions. -/
theorem download_fetches_parent_witness :
    download 3 (some 9) 9 []
      [("x", .mk "x" 1 (some "p") 0 0 []), ("p", .mk "p" 1 none 0 0 [])]
      (some ["x"]) [] [] [] =
      some (.ok ["x", "p"]
        [("x", .mk "x" 1 (some "p") 0 0 []), ("p", .mk "p" 1 none 0 0 [])]) :=
  (download_fetches_parent "x" "p" 1 1 9 [] (by decide)).1

/-- The parent keys referenced by any item of the remote library. -/
def parentKeys (lib : List (String × JItem)) : List String :=
  lib.filterMap (fun kv => kv.2.parent)

/-- The number of distinct library parent keys not yet on the worklist. -/
def unseenParents (lib : List (String × JItem)) (keys : List String) : Nat :=
  ((parentKeys lib).dedup.filter (fun e => !keys.contains e)).length

theorem selectBatch_cursor (versions : Obj) (items : Items)
    (keys : List String) :
    ∀ (n i : Nat) (batch : List String), keys.length ≤ i + n →
      i < keys.length →
      i < (selectBatch versions items keys i batch).2 ∧
        (selectBatch versions items keys i batch).2 ≤ keys.length := by
  intro n
  induction n with
  | zero =>
    intro i batch h1 h2
    omega
  | succ n ih =>
    intro i batch h1 h2
    rw [selectBatch, dif_pos h2]
    simp only []
    by_cases hnext : i + 1 < keys.length
    · split
      · split
        · simp
          omega
        · obtain ⟨ha, hb⟩ := ih (i + 1) _ (by omega) hnext
          exact ⟨by omega, hb⟩
      · obtain ⟨ha, hb⟩ := ih (i + 1) _ (by omega) hnext
        exact ⟨by omega, hb⟩
    · have hstop : ∀ b : List String,
          selectBatch versions items keys (i + 1) b = (b, i + 1) := by
        intro b
        rw [selectBatch, dif_neg (by omega)]
      split
      · split
        · simp
          omega
        · rw [hstop]
          exact ⟨by omega, by omega⟩
      · rw [hstop]
        exact ⟨by omega, by omega⟩

theorem receiveItems_keys_ext {sv : Option Int} :
    ∀ (ls : List JItem) (ks : List String) (items : Items)
      (r : Option (List String) × Items),
      receiveItems sv ls (some ks) items = .ok r →
      ∃ ext : List String, r.1 = some (ks ++ ext) ∧ ext.Nodup ∧
        (∀ e ∈ ext, e ∉ ks) ∧
        (∀ e ∈ ext, e ∈ ls.filterMap JItem.parent) := by
  intro ls
  induction ls with
  | nil =>
    intro ks items r h
    rw [receiveItems] at h
    cases h
    exact ⟨[], by simp, List.nodup_nil, by simp, by simp⟩
  | cons it rest ih =>
    intro ks items r h
    rw [receiveItems] at h
    cases hp : it.parent with
    | none =>
      rw [hp] at h
      simp only [appendParent] at h
      have hcont : ∀ (items2 : Items),
          receiveItems sv rest (some ks) items2 = .ok r →
          ∃ ext : List String, r.1 = some (ks ++ ext) ∧ ext.Nodup ∧
            (∀ e ∈ ext, e ∉ ks) ∧
            (∀ e ∈ ext, e ∈ (it :: rest).filterMap JItem.parent) := by
        intro items2 h2
        obtain ⟨ext, h1', h2', h3', h4'⟩ := ih ks items2 r h2
        exact ⟨ext, h1', h2', h3', fun e he => by
          simp only [List.filterMap_cons, hp]
          exact h4' e he⟩
      split at h
      · split at h
        · simp at h
        · exact hcont _ h
      · exact hcont _ h
    | some q =>
      rw [hp] at h
      simp only [appendParent] at h
      by_cases hc : ks.contains q
      · rw [if_pos hc] at h
        have hcont : ∀ (items2 : Items),
            receiveItems sv rest (some ks) items2 = .ok r →
            ∃ ext : List String, r.1 = some (ks ++ ext) ∧ ext.Nodup ∧
              (∀ e ∈ ext, e ∉ ks) ∧
              (∀ e ∈ ext, e ∈ (it :: rest).filterMap JItem.parent) := by
          intro items2 h2
          obtain ⟨ext, h1', h2', h3', h4'⟩ := ih ks items2 r h2
          refine ⟨ext, h1', h2', h3', fun e he => ?_⟩
          simp only [List.filterMap_cons, hp]
          exact List.mem_cons_of_mem q (h4' e he)
        split at h
        · split at h
          · simp at h
          · exact hcont _ h
        · exact hcont _ h
      · rw [if_neg hc] at h
        have hqks : q ∉ ks := by
          intro hmem
          exact hc (by simpa [List.contains] using hmem)
        have hcont : ∀ (items2 : Items),
            receiveItems sv rest (some (ks ++ [q])) items2 = .ok r →
            ∃ ext : List String, r.1 = some (ks ++ ext) ∧ ext.Nodup ∧
              (∀ e ∈ ext, e ∉ ks) ∧
              (∀ e ∈ ext, e ∈ (it :: rest).filterMap JItem.parent) := by
          intro items2 h2
          obtain ⟨ext, h1', h2', h3', h4'⟩ := ih (ks ++ [q]) items2 r h2
          refine ⟨q :: ext, ?_, ?_, ?_, ?_⟩
          · rw [h1']
            simp
          · refine List.nodup_cons.mpr ⟨?_, h2'⟩
            intro hq
            exact h3' q hq (by simp)
          · intro e he
            rcases List.mem_cons.mp he with rfl | he'
            · exact hqks
            · intro hek
              exact h3' e he' (List.mem_append_left _ hek)
          · intro e he
            simp only [List.filterMap_cons, hp]
            rcases List.mem_cons.mp he with rfl | he'
            · exact List.mem_cons_self _ _
            · exact List.mem_cons_of_mem q (h4' e he')
        split at h
        · split at h
          · simp at h
          · exact hcont _ h
        · exact hcont _ h

theorem receive_keys_ext {sv : Option Int} {msg : IMessage}
    {ks : List String} {items : Items}
    {r : Option (List String) × Items}
    (h : receive sv msg (some ks) items = .ok r) :
    ∃ ext : List String, r.1 = some (ks ++ ext) ∧ ext.Nodup ∧
      (∀ e ∈ ext, e ∉ ks) ∧
      (∀ e ∈ ext, e ∈ msg.data.filterMap JItem.parent) := by
  rw [receive] at h
  split at h
  · simp at h
  · exact receiveItems_keys_ext msg.data ks items r h

theorem parent_mem_parentKeys {lib : List (String × JItem)}
    {batch : List String} {e : String}
    (h : e ∈ (fetchItems lib batch).filterMap JItem.parent) :
    e ∈ parentKeys lib := by
  simp only [fetchItems, parentKeys, List.mem_filterMap] at h ⊢
  obtain ⟨it, hit, hp⟩ := h
  simp only [List.mem_filterMap, Option.map_eq_some'] at hit
  obtain ⟨k, hk, kv, hfind, hsnd⟩ := hit
  exact ⟨kv, List.mem_of_find?_eq_some hfind, hsnd ▸ hp⟩

theorem length_filter_and_split (d : List String) (a b : String → Bool) :
    (d.filter (fun e => a e && b e)).length +
      (d.filter (fun e => a e && !b e)).length = (d.filter a).length := by
  induction d with
  | nil => rfl
  | cons x t ih =>
    cases hax : a x <;> cases hbx : b x <;>
      simp [List.filter, hax, hbx] <;> omega

theorem extension_measure (lib : List (String × JItem))
    (ks ext : List String) (hnd : ext.Nodup) (hdisj : ∀ e ∈ ext, e ∉ ks)
    (hsub : ∀ e ∈ ext, e ∈ parentKeys lib) :
    (ks ++ ext).length + unseenParents lib (ks ++ ext) ≤
      ks.length + unseenParents lib ks := by
  have hcongr : unseenParents lib (ks ++ ext) =
      ((parentKeys lib).dedup.filter
        (fun e => !ks.contains e && !ext.contains e)).length := by
    unfold unseenParents
    congr 1
    apply List.filter_congr
    intro e _
    by_cases h1 : e ∈ ks <;> by_cases h2 : e ∈ ext <;>
      simp [List.contains, h1, h2]
  have hsplit := length_filter_and_split (parentKeys lib).dedup
    (fun e => !ks.contains e) (fun e => !ext.contains e)
  have hext_le : ext.length ≤
      ((parentKeys lib).dedup.filter
        (fun e => !ks.contains e && !(!ext.contains e))).length := by
    have hss : ext ⊆ (parentKeys lib).dedup.filter
        (fun e => !ks.contains e && !(!ext.contains e)) := by
      intro e he
      refine List.mem_filter.mpr ⟨List.mem_dedup.mpr (hsub e he), ?_⟩
      have h1 : e ∉ ks := hdisj e he
      simp [List.contains, h1, he]
    exact (hnd.subperm hss).length_le
  have hlen : (ks ++ ext).length = ks.length + ext.length :=
    List.length_append ks ext
  unfold unseenParents
  rw [hlen]
  have hc2 : ((parentKeys lib).dedup.filter
      (fun e => !ks.contains e && !ext.contains e)).length =
      ((parentKeys lib).dedup.filter (fun e => !(ks ++ ext).contains e)).length := by
    rw [← hcongr]
    rfl
  rw [← hc2]
  omega

theorem downloadLoop_not_none (sv : Option Int) (rv : Int) (versions : Obj)
    (lib : List (String × JItem)) :
    ∀ (fuel : Nat) (keys : List String) (i : Nat) (items : Items),
      i ≤ keys.length →
      keys.length + unseenParents lib keys + 1 ≤ fuel + i →
      downloadLoop fuel sv rv versions lib keys i items ≠ none := by
  intro fuel
  induction fuel with
  | zero =>
    intro keys i items h1 h2
    exact absurd h2 (by omega)
  | succ fuel ih =>
    intro keys i items h1 h2
    rw [downloadLoop]
    by_cases hi : i < keys.length
    · rw [if_pos hi]
      rcases hsel : selectBatch versions items keys i [] with ⟨b, i2⟩
      obtain ⟨hlt, hle⟩ := selectBatch_cursor versions items keys
        (keys.length - i) i [] (by omega) hi
      rw [hsel] at hlt hle
      simp only [hsel]
      cases hb : b.isEmpty
      · simp only [Bool.false_eq_true, if_false]
        cases hr : receive sv ⟨rv, fetchItems lib b⟩ (some keys) items with
        | error r =>
          simp
        | ok r =>
          obtain ⟨ext, hext1, hnd2, hdisj, hsub⟩ := receive_keys_ext hr
          simp only [hext1, Option.getD_some]
          have hmono := extension_measure lib keys ext hnd2 hdisj
            (fun e he => parent_mem_parentKeys (hsub e he))
          exact ih (keys ++ ext) i2 r.2
            (le_trans hle (by simp))
            (by omega)
      · simp only [if_true]
        exact ih keys i2 items hle (by omega)
    · rw [if_neg hi]
      simp

/-- C10: `Session.download` terminates for every finite initial key list and
every finite remote library: a parent key is appended to the worklist only
when it is not already present, so each distinct parent is added at most
once, the worklist length stays below the initial length plus the number of
distinct parent keys in the library, and the scan cursor strictly increases
on every loop iteration — fuel `keys.length + unseenParents + 1` always
suffices for the batch loop to finish. -/
theorem download_terminates (sv : Option Int) (rv : Int) (versions : Obj)
    (lib : List (String × JItem)) (keysArg : Option (List String))
    (updated created : List String) (items : Items) :
    (download ((keysArg.getD (updated ++ created)).length +
        unseenParents lib (keysArg.getD (updated ++ created)) + 1)
      sv rv versions lib keysArg updated created items).isSome = true := by
  rw [Option.isSome_iff_ne_none]
  simp only [download]
  split
  · simp
  · exact downloadLoop_not_none sv rv versions lib _ _ 0 items
      (by omega) (by omega)

end Arkivo
